import Mathlib

/-!
# Verification of the Simon-style memory game sequence engine

Shallow embedding of the game logic of
`Arduino MemoryGame-Self-Screen/MemoryGame-Self-Screen.ino`.

The engine (`play_memory`) is a synchronous state machine: it grows a random
sequence of moves by one per round (`add_to_moves`), replays it
(`playMoves`), and validates the player's timed reproduction via
`wait_for_button`, deciding win/loss after `LEVELS_TO_COMPLETE` rounds.

Modelling decisions:
* Bytes are `Nat` with an explicit `% 256` where a byte store or return
  matters; machine timing is abstracted away.
* The non-deterministic sources are streams indexed by call count:
  `rand : Nat → Nat` models successive `random(0, NO_OF_LEDS)` draws (the
  draw is `rand k % NO_OF_LEDS`, matching the contract that `random(0,4)`
  yields a value in `[0,4)`), and `inp : Nat → Nat` models the successive
  return values of `wait_for_button` (`0` = timeout, otherwise the pressed
  choice code as a byte).
* Side effects (sequence growth, replay tones, the feedback tone played
  inside `wait_for_button` on a detected press) are recorded in an event
  trace; `gameBoard` array accesses are recorded in a ghost access log
  `acc` (`(true, i)` = write at index `i`, `(false, i)` = read).
* The bounded loops are written with explicit structural fuel so that every
  definition evaluates by kernel reduction; callers pass exactly the fuel
  the loop guard allows, so the out-of-fuel branch coincides with the
  guard-exit branch.
-/

namespace MemoryGame

/-- Source line 16: byte code returned by a timed-out button read. -/
def CHOICE_NONE : Nat := 0

/-- Source line 19. -/
def CHOICE_GREEN : Nat := 16

/-- Source line 20. -/
def CHOICE_RED : Nat := 8

/-- Source line 21. -/
def CHOICE_YELLOW : Nat := 4

/-- Source line 22. -/
def CHOICE_BLUE : Nat := 2

/-- Source line 25: number of LEDs / move choices. -/
def NO_OF_LEDS : Nat := 4

/-- Source line 48: rounds to remember before winning. -/
def LEVELS_TO_COMPLETE : Nat := 10

/-- Observable side effects of the engine: a sequence-growth append, a
replay tone during `playMoves`, and the feedback tone `wait_for_button`
plays for a detected press. -/
inductive Event where
  | growEv (m : Nat)
  | replayTone (m : Nat)
  | inputTone (m : Nat)
deriving DecidableEq, Repr

/-- State of one `play_memory` session: the `gameBoard` array (total
function; the hardware array has 32 cells), the `gameRound` counter, the
local retry counter `c` of `play_memory`, the number of `wait_for_button`
calls consumed so far (`inIdx` indexes the input stream), the event trace,
and the ghost `gameBoard` access log. -/
@[ext]
structure Sess where
  board : Nat → Nat
  round : Nat
  c : Nat
  inIdx : Nat
  trace : List Event
  acc : List (Bool × Nat)

/-- Source lines 177-181: the micro-retry loop in the timeout branch of
`play_memory` (`while (c < 3) { c++; if (c >= 3) return false; } return
false`), as the value the branch returns.  `fuel` bounds the loop; the
source loop runs at most `3 - c` times, and callers pass fuel `3`. -/
def retryLoop : Nat → Nat → Bool
  | 0, _ => false
  | fuel + 1, c =>
    if c < 3 then
      if c + 1 ≥ 3 then false else retryLoop fuel (c + 1)
    else false

/-- Source lines 238-241: the if-chain converting a draw in `[0, NO_OF_LEDS)`
to a choice code (any other value is left unchanged, as in the source). -/
def convertButton (n : Nat) : Nat :=
  if n = 0 then CHOICE_BLUE
  else if n = 1 then CHOICE_YELLOW
  else if n = 2 then CHOICE_RED
  else if n = 3 then CHOICE_GREEN
  else n

/-- Source lines 295-313: `checkButton` as a function of the four sensor
reads (0 = pressed). -/
def checkButton (sensorVal1 sensorVal2 sensorVal3 sensorVal4 : Nat) : Nat :=
  if sensorVal1 = 0 then CHOICE_BLUE
  else if sensorVal2 = 0 then CHOICE_YELLOW
  else if sensorVal3 = 0 then CHOICE_RED
  else if sensorVal4 = 0 then CHOICE_GREEN
  else CHOICE_NONE

/-- Source lines 274-291: `wait_for_button` at the input-stream boundary.
The `i`-th call returns the byte `inp i % 256`; on a detected press
(nonzero) it plays the feedback tone for that press (line 284) before
returning, on timeout it returns `CHOICE_NONE` with no tone. -/
def wait_for_button (inp : Nat → Nat) (i : Nat) : Nat × List Event :=
  let button := inp i % 256
  if button = CHOICE_NONE then (CHOICE_NONE, [])
  else (button, [Event.inputTone button])

/-- Source lines 232-244: `add_to_moves` draws `random(0, NO_OF_LEDS)`
(the `s.round`-th draw of the stream, since `gameRound` counts exactly the
draws made), converts it to a choice code, and stores it at
`gameBoard[gameRound++]` (byte increment). -/
def add_to_moves (rand : Nat → Nat) (s : Sess) : Sess :=
  let newButton := convertButton (rand s.round % NO_OF_LEDS)
  { s with
    board := Function.update s.board s.round newButton
    round := (s.round + 1) % 256
    trace := s.trace ++ [Event.growEv newButton]
    acc := s.acc ++ [(true, s.round)] }

/-- Source lines 220-229: `playMoves` plays `gameBoard[0..gameRound)` in
order, reading each entry. -/
def playMoves (s : Sess) : Sess :=
  { s with
    trace := s.trace ++ (List.range s.round).map (fun j => Event.replayTone (s.board j))
    acc := s.acc ++ (List.range s.round).map (fun j => (false, j)) }

/-- Source lines 172-185: the validation loop of `play_memory`
(`for currentMove in [0, gameRound)`).  Each step calls `wait_for_button`;
a timeout returns the value of the micro-retry loop (lines 175-183), a
mismatching press returns `false` (line 184, reading
`gameBoard[currentMove]`), a matching press continues.  `fuel` bounds the
loop; callers pass `s.round - currentMove`, exactly what the guard allows,
so exhaustion coincides with the guard-exit branch `(s, none)`. -/
def validateLoop (inp : Nat → Nat) : Nat → Nat → Sess → Sess × Option Bool
  | 0, _, s => (s, none)
  | fuel + 1, currentMove, s =>
    if currentMove < s.round then
      let wb := wait_for_button inp s.inIdx
      let s1 : Sess := { s with inIdx := s.inIdx + 1, trace := s.trace ++ wb.2 }
      if wb.1 = CHOICE_NONE then
        (s1, some (retryLoop 3 s1.c))
      else
        let s2 : Sess := { s1 with acc := s1.acc ++ [(false, currentMove)] }
        if wb.1 ≠ s.board currentMove then (s2, some false)
        else validateLoop inp fuel (currentMove + 1) s2
    else (s, none)

/-- Source lines 163-188: the outer `while (gameRound < LEVELS_TO_COMPLETE)`
loop of `play_memory`: grow, replay, validate; the loop ends (returning
`true`, line 188) when the guard fails.  `fuel` bounds the loop; callers
pass `LEVELS_TO_COMPLETE - gameRound`, so exhaustion coincides with the
guard-exit branch. -/
def gameLoop (rand inp : Nat → Nat) : Nat → Sess → Sess × Bool
  | 0, s => (s, true)
  | fuel + 1, s =>
    if s.round < LEVELS_TO_COMPLETE then
      let s1 := add_to_moves rand s
      let s2 := playMoves s1
      match validateLoop inp s2.round 0 s2 with
      | (s3, some b) => (s3, b)
      | (s3, none) => gameLoop rand inp fuel s3
    else (s, true)

/-- Session state at entry of `play_memory` (line 159: `gameRound = 0`; the
global `gameBoard` keeps whatever a previous session left, `board0`; the
local `int c = 0` of line 155; nothing played yet). -/
def initSess (board0 : Nat → Nat) : Sess :=
  { board := board0, round := 0, c := 0, inIdx := 0, trace := [], acc := [] }

/-- Source lines 153-189: `play_memory`.  Returns the final session state
and the boolean outcome (`true` = won). -/
def play_memory (rand inp : Nat → Nat) (board0 : Nat → Nat) : Sess × Bool :=
  gameLoop rand inp LEVELS_TO_COMPLETE (initSess board0)

/-- The variant of the validation loop from the commented-out reference
version of `play_memory` (source lines 207-212): identical except that the
timeout branch returns `false` immediately, with no micro-retry loop. -/
def validateLoopS (inp : Nat → Nat) : Nat → Nat → Sess → Sess × Option Bool
  | 0, _, s => (s, none)
  | fuel + 1, currentMove, s =>
    if currentMove < s.round then
      let wb := wait_for_button inp s.inIdx
      let s1 : Sess := { s with inIdx := s.inIdx + 1, trace := s.trace ++ wb.2 }
      if wb.1 = CHOICE_NONE then
        (s1, some false)
      else
        let s2 : Sess := { s1 with acc := s1.acc ++ [(false, currentMove)] }
        if wb.1 ≠ s.board currentMove then (s2, some false)
        else validateLoopS inp fuel (currentMove + 1) s2
    else (s, none)

/-- Outer loop of the variant without the micro-retry loop. -/
def gameLoopS (rand inp : Nat → Nat) : Nat → Sess → Sess × Bool
  | 0, s => (s, true)
  | fuel + 1, s =>
    if s.round < LEVELS_TO_COMPLETE then
      let s1 := add_to_moves rand s
      let s2 := playMoves s1
      match validateLoopS inp s2.round 0 s2 with
      | (s3, some b) => (s3, b)
      | (s3, none) => gameLoopS rand inp fuel s3
    else (s, true)

/-- `play_memory` with the timeout branch returning `false` immediately
(source lines 192-216, the commented-out reference version). -/
def play_memory_simple (rand inp : Nat → Nat) (board0 : Nat → Nat) : Sess × Bool :=
  gameLoopS rand inp LEVELS_TO_COMPLETE (initSess board0)

/-- The move `add_to_moves` appends at position `p`: the `p`-th draw of the
random stream, converted. -/
def seqMove (rand : Nat → Nat) (p : Nat) : Nat :=
  convertButton (rand p % NO_OF_LEDS)

/-- `segSum k m = (k+1) + (k+2) + ... + (k+m)`: the number of validation
calls consumed by rounds `k+1 .. k+m` (round `r` validates `r`
positions). -/
def segSum : Nat → Nat → Nat
  | _, 0 => 0
  | k, m + 1 => (k + 1) + segSum (k + 1) m

/-- Locate the `j`-th `wait_for_button` validation call of a session:
`callPos fuel j k = (K, p)` means the call lands in the block of round
`K + 1` at position `p ≤ K`, counting blocks from `k` with `j` the offset
into the remaining blocks.  Fuel ≥ `j` suffices (each step shrinks `j` by
at least 1, and at `j = 0` both branches agree). -/
def callPos : Nat → Nat → Nat → Nat × Nat
  | 0, j, k => (k, j)
  | fuel + 1, j, k => if j ≤ k then (k, j) else callPos fuel (j - (k + 1)) (k + 1)

/-- Round block (0-based: the call belongs to round `blockOf j + 1`) of the
`j`-th validation call. -/
def blockOf (j : Nat) : Nat := (callPos j j 0).1

/-- Position within its round of the `j`-th validation call. -/
def posOf (j : Nat) : Nat := (callPos j j 0).2

/-- Number of sequence-growth events in a trace. -/
def growCount : List Event → Nat
  | [] => 0
  | Event.growEv _ :: t => growCount t + 1
  | _ :: t => growCount t

/-- Number of replay tones in a trace. -/
def replayCount : List Event → Nat
  | [] => 0
  | Event.replayTone _ :: t => replayCount t + 1
  | _ :: t => replayCount t

/-- Number of input-feedback tones in a trace. -/
def inputToneCount : List Event → Nat
  | [] => 0
  | Event.inputTone _ :: t => inputToneCount t + 1
  | _ :: t => inputToneCount t

/-- Checks a `gameBoard` access log: every access is at an index below
`LEVELS_TO_COMPLETE`, and every read is of an index written earlier
(`w` accumulates the indices written so far). -/
def accOk (w : List Nat) : List (Bool × Nat) → Bool
  | [] => true
  | (true, i) :: rest => decide (i < LEVELS_TO_COMPLETE) && accOk (i :: w) rest
  | (false, i) :: rest => decide (i < LEVELS_TO_COMPLETE) && w.contains i && accOk w rest

/-- The write-index accumulator of an access log, starting from `w`. -/
def writesAcc (w : List Nat) (l : List (Bool × Nat)) : List Nat :=
  l.foldl (fun ws e => if e.1 then e.2 :: ws else ws) w

/-! ## Basic lemmas -/

/-- The micro-retry loop returns `false` for every fuel and counter value:
every path through the source loop ends in `return false`. -/
theorem retryLoop_eq_false : ∀ fuel c, retryLoop fuel c = false := by
  intro fuel
  induction fuel with
  | zero => intro c; rfl
  | succ fuel ih =>
    intro c
    simp only [retryLoop]
    split
    · split
      · rfl
      · exact ih (c + 1)
    · rfl

/-- `convertButton` never produces the timeout code `0`. -/
theorem convertButton_ne_zero (n : Nat) : convertButton n ≠ 0 := by
  simp only [convertButton, CHOICE_BLUE, CHOICE_YELLOW, CHOICE_RED, CHOICE_GREEN]
  split
  · omega
  split
  · omega
  split
  · omega
  split
  · omega
  · omega

/-- Sequence entries are never the timeout code. -/
theorem seqMove_ne_zero (rand : Nat → Nat) (p : Nat) : seqMove rand p ≠ 0 :=
  convertButton_ne_zero _

theorem segSum_succ (k m : Nat) : segSum k (m + 1) = segSum k m + (k + m + 1) := by
  induction m generalizing k with
  | zero => simp [segSum]
  | succ m ih =>
    rw [segSum, ih (k + 1), segSum]
    omega

theorem segSum_le_segSum (m m' : Nat) (h : m ≤ m') : segSum 0 m ≤ segSum 0 m' := by
  induction m' with
  | zero =>
    have hm : m = 0 := by omega
    subst hm
    exact Nat.le_refl _
  | succ m' ih =>
    rcases Nat.lt_or_ge m (m' + 1) with h' | h'
    · have := ih (by omega)
      rw [segSum_succ]
      omega
    · have hm : m = m' + 1 := by omega
      subst hm
      exact Nat.le_refl _

theorem segSum_ten : segSum 0 10 = 55 := by decide

/-- `callPos` locates a call given as a block-aligned decomposition:
offset `segSum k m + p` from block `k`, with `p ≤ k + m`, lands in block
`k + m` at position `p` (for sufficient fuel). -/
theorem callPos_spec : ∀ m k p fuel, p ≤ k + m → segSum k m + p ≤ fuel →
    callPos fuel (segSum k m + p) k = (k + m, p) := by
  intro m
  induction m with
  | zero =>
    intro k p fuel hp _
    simp only [segSum, Nat.zero_add]
    cases fuel with
    | zero => simp [callPos]
    | succ fuel =>
      simp only [callPos]
      rw [if_pos (by omega)]
      simp
  | succ m ih =>
    intro k p fuel hp hfuel
    have hseg : segSum k (m + 1) = (k + 1) + segSum (k + 1) m := rfl
    cases fuel with
    | zero => omega
    | succ fuel =>
      simp only [callPos]
      rw [if_neg (by omega)]
      have harg : segSum k (m + 1) + p - (k + 1) = segSum (k + 1) m + p := by omega
      rw [harg]
      have := ih (k + 1) p fuel (by omega) (by omega)
      rw [this]
      have hkm : k + 1 + m = k + (m + 1) := by omega
      rw [hkm]

/-- Every call index decomposes into its round block and position. -/
theorem callPos_decomp : ∀ fuel j k, j ≤ fuel →
    (callPos fuel j k).2 ≤ (callPos fuel j k).1 ∧
    k ≤ (callPos fuel j k).1 ∧
    segSum k ((callPos fuel j k).1 - k) + (callPos fuel j k).2 = j := by
  intro fuel
  induction fuel with
  | zero =>
    intro j k hj
    have : j = 0 := by omega
    subst this
    simp [callPos, segSum]
  | succ fuel ih =>
    intro j k hj
    simp only [callPos]
    split
    · simp only
      refine ⟨by omega, by omega, ?_⟩
      simp [segSum]
    · rename_i hgt
      have hrec := ih (j - (k + 1)) (k + 1) (by omega)
      refine ⟨hrec.1, by omega, ?_⟩
      have hk1 : k + 1 ≤ (callPos fuel (j - (k + 1)) (k + 1)).1 := hrec.2.1
      have hs : (callPos fuel (j - (k + 1)) (k + 1)).1 - k =
          ((callPos fuel (j - (k + 1)) (k + 1)).1 - (k + 1)) + 1 := by omega
      rw [hs, segSum]
      have := hrec.2.2
      omega

/-- `blockOf` and `posOf` decompose a call index: the `j`-th validation
call belongs to round `blockOf j + 1` at position `posOf j ≤ blockOf j`,
and `j = segSum 0 (blockOf j) + posOf j`. -/
theorem blockOf_posOf_decomp (j : Nat) :
    posOf j ≤ blockOf j ∧ segSum 0 (blockOf j) + posOf j = j := by
  have h := callPos_decomp j j 0 (Nat.le_refl j)
  refine ⟨h.1, ?_⟩
  have := h.2.2
  simpa using this

/-- On a block-aligned index, `blockOf` and `posOf` recover the round block
and position. -/
theorem blockOf_posOf_spec (R p : Nat) (hp : p ≤ R) :
    blockOf (segSum 0 R + p) = R ∧ posOf (segSum 0 R + p) = p := by
  have h := callPos_spec R 0 p (segSum 0 R + p) (by omega) (Nat.le_refl _)
  unfold blockOf posOf
  rw [h]
  simp

/-! ## Trace count lemmas -/

theorem growCount_append : ∀ t1 t2 : List Event,
    growCount (t1 ++ t2) = growCount t1 + growCount t2 := by
  intro t1 t2
  induction t1 with
  | nil => simp [growCount]
  | cons e t ih =>
    cases e <;> simp [growCount, ih] <;> omega

theorem replayCount_append : ∀ t1 t2 : List Event,
    replayCount (t1 ++ t2) = replayCount t1 + replayCount t2 := by
  intro t1 t2
  induction t1 with
  | nil => simp [replayCount]
  | cons e t ih =>
    cases e <;> simp [replayCount, ih] <;> omega

theorem inputToneCount_append : ∀ t1 t2 : List Event,
    inputToneCount (t1 ++ t2) = inputToneCount t1 + inputToneCount t2 := by
  intro t1 t2
  induction t1 with
  | nil => simp [inputToneCount]
  | cons e t ih =>
    cases e <;> simp [inputToneCount, ih] <;> omega

theorem counts_map_replay (l : List Nat) (f : Nat → Nat) :
    growCount (l.map (fun j => Event.replayTone (f j))) = 0 ∧
    inputToneCount (l.map (fun j => Event.replayTone (f j))) = 0 ∧
    replayCount (l.map (fun j => Event.replayTone (f j))) = l.length := by
  induction l with
  | nil => simp [growCount, inputToneCount, replayCount]
  | cons x l ih => simpa [growCount, inputToneCount, replayCount] using ih

theorem counts_map_inputTone (l : List Nat) (f : Nat → Nat) :
    growCount (l.map (fun j => Event.inputTone (f j))) = 0 ∧
    replayCount (l.map (fun j => Event.inputTone (f j))) = 0 ∧
    inputToneCount (l.map (fun j => Event.inputTone (f j))) = l.length := by
  induction l with
  | nil => simp [growCount, inputToneCount, replayCount]
  | cons x l ih => simpa [growCount, inputToneCount, replayCount] using ih

/-! ## Validation loop step equations -/

/-- Loop exit: the position counter has reached `gameRound`. -/
theorem val_step_done (inp : Nat → Nat) (fuel cm : Nat) (s : Sess)
    (hguard : ¬cm < s.round) :
    validateLoop inp (fuel + 1) cm s = (s, none) := by
  simp [validateLoop, hguard]

/-- Timeout step: the read times out, the micro-retry loop runs and the
session is lost; no feedback tone, no board read. -/
theorem val_step_timeout (inp : Nat → Nat) (fuel cm : Nat) (s : Sess)
    (hguard : cm < s.round) (h0 : inp s.inIdx % 256 = 0) :
    validateLoop inp (fuel + 1) cm s =
      ({ board := s.board, round := s.round, c := s.c, inIdx := s.inIdx + 1,
         trace := s.trace, acc := s.acc }, some false) := by
  simp only [validateLoop, wait_for_button, CHOICE_NONE, h0, if_pos hguard, if_true, ite_true,
    reduceIte, List.append_nil]
  rw [retryLoop_eq_false]

/-- Wrong-press step: a nonzero press that mismatches the board entry; the
press still gets its feedback tone, the entry is read, the session is
lost. -/
theorem val_step_wrong (inp : Nat → Nat) (fuel cm : Nat) (s : Sess)
    (hguard : cm < s.round) (h0 : inp s.inIdx % 256 ≠ 0)
    (hne : inp s.inIdx % 256 ≠ s.board cm) :
    validateLoop inp (fuel + 1) cm s =
      ({ board := s.board, round := s.round, c := s.c, inIdx := s.inIdx + 1,
         trace := s.trace ++ [Event.inputTone (inp s.inIdx % 256)],
         acc := s.acc ++ [((false : Bool), cm)] }, some false) := by
  simp [validateLoop, wait_for_button, CHOICE_NONE, h0, hguard, hne]

/-- Accepted-press step: a nonzero press matching the board entry; feedback
tone, board read, and the loop continues at the next position. -/
theorem val_step_okpos (inp : Nat → Nat) (fuel cm : Nat) (s : Sess)
    (hguard : cm < s.round) (h0 : inp s.inIdx % 256 ≠ 0)
    (heq : inp s.inIdx % 256 = s.board cm) :
    validateLoop inp (fuel + 1) cm s =
      validateLoop inp fuel (cm + 1)
        { board := s.board, round := s.round, c := s.c, inIdx := s.inIdx + 1,
          trace := s.trace ++ [Event.inputTone (s.board cm)],
          acc := s.acc ++ [((false : Bool), cm)] } := by
  have hb0 : s.board cm ≠ 0 := by rw [← heq]; exact h0
  simp [validateLoop, wait_for_button, CHOICE_NONE, hguard, heq, hb0]

/-! ## Validation loop lemmas -/

/-- The validation loop never changes `gameBoard`, `gameRound` or the retry
counter, appends no grow or replay events, and consumes at most
`gameRound - currentMove` inputs. -/
theorem val_pres (inp : Nat → Nat) : ∀ fuel cm (s : Sess),
    (validateLoop inp fuel cm s).1.round = s.round ∧
    (validateLoop inp fuel cm s).1.board = s.board ∧
    (validateLoop inp fuel cm s).1.c = s.c ∧
    growCount (validateLoop inp fuel cm s).1.trace = growCount s.trace ∧
    replayCount (validateLoop inp fuel cm s).1.trace = replayCount s.trace ∧
    (validateLoop inp fuel cm s).1.inIdx ≤ s.inIdx + (s.round - cm) := by
  intro fuel
  induction fuel with
  | zero =>
    intro cm s
    exact ⟨rfl, rfl, rfl, rfl, rfl, by show s.inIdx ≤ s.inIdx + (s.round - cm); omega⟩
  | succ fuel ih =>
    intro cm s
    by_cases hguard : cm < s.round
    · by_cases h0 : inp s.inIdx % 256 = 0
      · rw [val_step_timeout inp fuel cm s hguard h0]
        exact ⟨rfl, rfl, rfl, rfl, rfl,
          by show s.inIdx + 1 ≤ s.inIdx + (s.round - cm); omega⟩
      · by_cases hne : inp s.inIdx % 256 = s.board cm
        · rw [val_step_okpos inp fuel cm s hguard h0 hne]
          obtain ⟨p1, p2, p3, p4, p5, p6⟩ := ih (cm + 1)
            { board := s.board, round := s.round, c := s.c, inIdx := s.inIdx + 1,
              trace := s.trace ++ [Event.inputTone (s.board cm)],
              acc := s.acc ++ [((false : Bool), cm)] }
          refine ⟨p1, p2, p3, ?_, ?_, ?_⟩
          · rw [p4, growCount_append]
            simp [growCount]
          · rw [p5, replayCount_append]
            simp [replayCount]
          · have p6' : (validateLoop inp fuel (cm + 1)
                { board := s.board, round := s.round, c := s.c, inIdx := s.inIdx + 1,
                  trace := s.trace ++ [Event.inputTone (s.board cm)],
                  acc := s.acc ++ [((false : Bool), cm)] }).1.inIdx ≤
                s.inIdx + 1 + (s.round - (cm + 1)) := p6
            have p1' : (validateLoop inp fuel (cm + 1)
                { board := s.board, round := s.round, c := s.c, inIdx := s.inIdx + 1,
                  trace := s.trace ++ [Event.inputTone (s.board cm)],
                  acc := s.acc ++ [((false : Bool), cm)] }).1.round = s.round := p1
            omega
        · rw [val_step_wrong inp fuel cm s hguard h0 hne]
          refine ⟨rfl, rfl, rfl, ?_, ?_, ?_⟩
          · show growCount (s.trace ++ [Event.inputTone (inp s.inIdx % 256)]) = growCount s.trace
            rw [growCount_append]
            simp [growCount]
          · show replayCount (s.trace ++ [Event.inputTone (inp s.inIdx % 256)]) =
              replayCount s.trace
            rw [replayCount_append]
            simp [replayCount]
          · show s.inIdx + 1 ≤ s.inIdx + (s.round - cm)
            omega
    · rw [val_step_done inp fuel cm s hguard]
      exact ⟨rfl, rfl, rfl, rfl, rfl, by show s.inIdx ≤ s.inIdx + (s.round - cm); omega⟩

/-- Successful validation of all remaining positions: if every input from
`currentMove` on matches the (nonzero) board entry, the loop returns
`none`, consumes exactly the remaining inputs, and plays exactly the
feedback tone of each accepted press. -/
theorem val_ok (inp : Nat → Nat) : ∀ m cm (s : Sess),
    s.round = cm + m →
    (∀ t, t < m → inp (s.inIdx + t) % 256 = s.board (cm + t) ∧ s.board (cm + t) ≠ 0) →
    validateLoop inp m cm s =
      ({ board := s.board, round := s.round, c := s.c, inIdx := s.inIdx + m,
         trace := s.trace ++ (List.range' cm m).map (fun i => Event.inputTone (s.board i)),
         acc := s.acc ++ (List.range' cm m).map (fun i => ((false : Bool), i)) }, none) := by
  intro m
  induction m with
  | zero =>
    intro cm s hr _
    simp [validateLoop]
  | succ m ih =>
    intro cm s hr hok
    have hguard : cm < s.round := by omega
    have h0 := (hok 0 (by omega)).2
    have hch := (hok 0 (by omega)).1
    simp only [Nat.add_zero] at h0 hch
    have hbne : inp s.inIdx % 256 ≠ 0 := by rw [hch]; exact h0
    rw [val_step_okpos inp m cm s hguard hbne hch]
    have hrec := ih (cm + 1)
      { board := s.board, round := s.round, c := s.c, inIdx := s.inIdx + 1,
        trace := s.trace ++ [Event.inputTone (s.board cm)],
        acc := s.acc ++ [((false : Bool), cm)] }
      (by simp only; omega)
      (by
        intro t ht
        have := hok (t + 1) (by omega)
        simp only
        constructor
        · rw [show s.inIdx + 1 + t = s.inIdx + (t + 1) by omega,
            show cm + 1 + t = cm + (t + 1) by omega]
          exact this.1
        · rw [show cm + 1 + t = cm + (t + 1) by omega]
          exact this.2)
    rw [hrec]
    simp only [Prod.mk.injEq]
    refine ⟨?_, trivial⟩
    refine Sess.ext rfl rfl rfl (by simp only; omega) ?_ ?_
    · simp only [List.range'_succ, List.map_cons, List.append_assoc, List.singleton_append,
        List.cons_append, List.nil_append]
    · simp only [List.range'_succ, List.map_cons, List.append_assoc, List.singleton_append,
        List.cons_append, List.nil_append]

/-- Failing validation: if positions `currentMove .. currentMove+q-1`
succeed and position `currentMove+q` fails (timeout or mismatch), the loop
returns `some false` immediately after the failing call, having consumed
exactly `q+1` inputs; the failing press gets a feedback tone exactly when
it is not a timeout. -/
theorem val_fail (inp : Nat → Nat) : ∀ q m cm (s : Sess),
    s.round = cm + m → q < m →
    (∀ t, t < q → inp (s.inIdx + t) % 256 = s.board (cm + t) ∧ s.board (cm + t) ≠ 0) →
    inp (s.inIdx + q) % 256 ≠ s.board (cm + q) →
    validateLoop inp m cm s =
      ({ board := s.board, round := s.round, c := s.c, inIdx := s.inIdx + q + 1,
         trace := s.trace ++ (List.range' cm q).map (fun i => Event.inputTone (s.board i)) ++
           (if inp (s.inIdx + q) % 256 = 0 then []
            else [Event.inputTone (inp (s.inIdx + q) % 256)]),
         acc := s.acc ++ (List.range' cm q).map (fun i => ((false : Bool), i)) ++
           (if inp (s.inIdx + q) % 256 = 0 then []
            else [((false : Bool), cm + q)]) }, some false) := by
  intro q
  induction q with
  | zero =>
    intro m cm s hr hq hok hbad
    cases m with
    | zero => omega
    | succ m0 =>
      have hguard : cm < s.round := by omega
      simp only [Nat.add_zero] at hbad ⊢
      by_cases h0 : inp s.inIdx % 256 = 0
      · rw [val_step_timeout inp m0 cm s hguard h0]
        simp [h0]
      · rw [val_step_wrong inp m0 cm s hguard h0 hbad]
        simp [h0]
  | succ q ih =>
    intro m cm s hr hq hok hbad
    cases m with
    | zero => omega
    | succ m0 =>
      have hguard : cm < s.round := by omega
      have h0 := (hok 0 (by omega)).2
      have hch := (hok 0 (by omega)).1
      simp only [Nat.add_zero] at h0 hch
      have hbne : inp s.inIdx % 256 ≠ 0 := by rw [hch]; exact h0
      rw [val_step_okpos inp m0 cm s hguard hbne hch]
      have hrec := ih m0 (cm + 1)
        { board := s.board, round := s.round, c := s.c, inIdx := s.inIdx + 1,
          trace := s.trace ++ [Event.inputTone (s.board cm)],
          acc := s.acc ++ [((false : Bool), cm)] }
        (by simp only; omega)
        (by omega)
        (by
          intro t ht
          have := hok (t + 1) (by omega)
          simp only
          constructor
          · rw [show s.inIdx + 1 + t = s.inIdx + (t + 1) by omega,
              show cm + 1 + t = cm + (t + 1) by omega]
            exact this.1
          · rw [show cm + 1 + t = cm + (t + 1) by omega]
            exact this.2)
        (by
          simp only
          rw [show s.inIdx + 1 + q = s.inIdx + (q + 1) by omega,
            show cm + 1 + q = cm + (q + 1) by omega]
          exact hbad)
      rw [hrec]
      simp only [Prod.mk.injEq]
      have hidx : s.inIdx + 1 + q = s.inIdx + (q + 1) := by omega
      have hcmq : cm + 1 + q = cm + (q + 1) := by omega
      refine ⟨?_, trivial⟩
      refine Sess.ext rfl rfl rfl (by simp only; omega) ?_ ?_
      · simp only [hidx, hcmq, List.range'_succ, List.map_cons, List.append_assoc,
          List.singleton_append, List.cons_append, List.nil_append]
      · simp only [hidx, hcmq, List.range'_succ, List.map_cons, List.append_assoc,
          List.singleton_append, List.cons_append, List.nil_append]

/-! ## Outer loop round lemmas -/

/-- One iteration of the outer loop, unfolded: grow and replay, then hand
the updated state to the validation loop. -/
theorem round_step (rand inp : Nat → Nat) (fuel : Nat) (s : Sess) (hr : s.round < 10) :
    gameLoop rand inp (fuel + 1) s =
      (match validateLoop inp (s.round + 1) 0
        { board := Function.update s.board s.round (seqMove rand s.round),
          round := s.round + 1, c := s.c, inIdx := s.inIdx,
          trace := (s.trace ++ [Event.growEv (seqMove rand s.round)]) ++
            (List.range (s.round + 1)).map (fun j =>
              Event.replayTone (Function.update s.board s.round (seqMove rand s.round) j)),
          acc := (s.acc ++ [((true : Bool), s.round)]) ++
            (List.range (s.round + 1)).map (fun j => ((false : Bool), j)) } with
      | (s3, some b) => (s3, b)
      | (s3, none) => gameLoop rand inp fuel s3) := by
  have hmod : (s.round + 1) % 256 = s.round + 1 := Nat.mod_eq_of_lt (by omega)
  simp only [gameLoop, add_to_moves, playMoves, seqMove, hmod]
  rw [if_pos (show s.round < LEVELS_TO_COMPLETE from hr)]

/-- A fully-correct round: every validation input of this round matches the
sequence, so the outer loop proceeds to the next round with the grown
board, all inputs of the round consumed, and the round's grow, replay and
feedback events appended. -/
theorem round_win (rand inp : Nat → Nat) (fuel : Nat) (s : Sess) (hr : s.round < 10)
    (hb : ∀ p, p < s.round → s.board p = seqMove rand p)
    (hin : ∀ t, t ≤ s.round → inp (s.inIdx + t) % 256 = seqMove rand t) :
    gameLoop rand inp (fuel + 1) s =
      gameLoop rand inp fuel
        { board := Function.update s.board s.round (seqMove rand s.round),
          round := s.round + 1, c := s.c, inIdx := s.inIdx + (s.round + 1),
          trace := ((s.trace ++ [Event.growEv (seqMove rand s.round)]) ++
            (List.range (s.round + 1)).map (fun j =>
              Event.replayTone (Function.update s.board s.round (seqMove rand s.round) j))) ++
            (List.range' 0 (s.round + 1)).map (fun i =>
              Event.inputTone (Function.update s.board s.round (seqMove rand s.round) i)),
          acc := ((s.acc ++ [((true : Bool), s.round)]) ++
            (List.range (s.round + 1)).map (fun j => ((false : Bool), j))) ++
            (List.range' 0 (s.round + 1)).map (fun i => ((false : Bool), i)) } := by
  have hBok : ∀ t, t ≤ s.round →
      Function.update s.board s.round (seqMove rand s.round) t = seqMove rand t := by
    intro t ht
    rcases Nat.lt_or_ge t s.round with h | h
    · rw [Function.update_noteq (by omega)]
      exact hb t h
    · have : t = s.round := by omega
      subst this
      rw [Function.update_same]
  rw [round_step rand inp fuel s hr]
  rw [val_ok inp (s.round + 1) 0
    { board := Function.update s.board s.round (seqMove rand s.round),
      round := s.round + 1, c := s.c, inIdx := s.inIdx,
      trace := (s.trace ++ [Event.growEv (seqMove rand s.round)]) ++
        (List.range (s.round + 1)).map (fun j =>
          Event.replayTone (Function.update s.board s.round (seqMove rand s.round) j)),
      acc := (s.acc ++ [((true : Bool), s.round)]) ++
        (List.range (s.round + 1)).map (fun j => ((false : Bool), j)) }
    (by simp only; omega)
    (by
      intro t ht
      simp only
      rw [show (0 : Nat) + t = t by omega]
      constructor
      · rw [hBok t (by omega)]
        exact hin t (by omega)
      · rw [hBok t (by omega)]
        exact seqMove_ne_zero rand t)]

/-- A failing round: positions `0..q-1` of this round are answered
correctly and position `q` fails (timeout or wrong press), so the outer
loop returns `false` right after the failing call. -/
theorem round_fail (rand inp : Nat → Nat) (fuel : Nat) (s : Sess) (q : Nat)
    (hr : s.round < 10) (hq : q ≤ s.round)
    (hb : ∀ p, p < s.round → s.board p = seqMove rand p)
    (hin : ∀ t, t < q → inp (s.inIdx + t) % 256 = seqMove rand t)
    (hbad : inp (s.inIdx + q) % 256 ≠ seqMove rand q) :
    gameLoop rand inp (fuel + 1) s =
      ({ board := Function.update s.board s.round (seqMove rand s.round),
         round := s.round + 1, c := s.c, inIdx := s.inIdx + q + 1,
         trace := (((s.trace ++ [Event.growEv (seqMove rand s.round)]) ++
           (List.range (s.round + 1)).map (fun j =>
             Event.replayTone (Function.update s.board s.round (seqMove rand s.round) j))) ++
           (List.range' 0 q).map (fun i =>
             Event.inputTone (Function.update s.board s.round (seqMove rand s.round) i))) ++
           (if inp (s.inIdx + q) % 256 = 0 then []
            else [Event.inputTone (inp (s.inIdx + q) % 256)]),
         acc := (((s.acc ++ [((true : Bool), s.round)]) ++
           (List.range (s.round + 1)).map (fun j => ((false : Bool), j))) ++
           (List.range' 0 q).map (fun i => ((false : Bool), i))) ++
           (if inp (s.inIdx + q) % 256 = 0 then []
            else [((false : Bool), 0 + q)]) }, false) := by
  have hBok : ∀ t, t ≤ s.round →
      Function.update s.board s.round (seqMove rand s.round) t = seqMove rand t := by
    intro t ht
    rcases Nat.lt_or_ge t s.round with h | h
    · rw [Function.update_noteq (by omega)]
      exact hb t h
    · have : t = s.round := by omega
      subst this
      rw [Function.update_same]
  rw [round_step rand inp fuel s hr]
  rw [val_fail inp q (s.round + 1) 0
    { board := Function.update s.board s.round (seqMove rand s.round),
      round := s.round + 1, c := s.c, inIdx := s.inIdx,
      trace := (s.trace ++ [Event.growEv (seqMove rand s.round)]) ++
        (List.range (s.round + 1)).map (fun j =>
          Event.replayTone (Function.update s.board s.round (seqMove rand s.round) j)),
      acc := (s.acc ++ [((true : Bool), s.round)]) ++
        (List.range (s.round + 1)).map (fun j => ((false : Bool), j)) }
    (by simp only; omega)
    (by omega)
    (by
      intro t ht
      simp only
      rw [show (0 : Nat) + t = t by omega]
      constructor
      · rw [hBok t (by omega)]
        exact hin t ht
      · rw [hBok t (by omega)]
        exact seqMove_ne_zero rand t)
    (by
      simp only
      rw [show (0 : Nat) + q = q by omega, hBok q hq]
      exact hbad)]

/-! ## Master session lemmas -/

/-- An all-correct session wins: if from the current (invariant-respecting)
state every remaining input matches the sequence entry at its validation
position, the loop reaches round 10 with all 55 inputs consumed, the board
filled with the drawn sequence, and one feedback tone per input. -/
theorem game_win (rand inp : Nat → Nat) : ∀ n (s : Sess),
    s.round + n = 10 →
    s.inIdx = segSum 0 s.round →
    (∀ p, p < s.round → s.board p = seqMove rand p) →
    (∀ j, s.inIdx ≤ j → j < 55 → inp j % 256 = seqMove rand (posOf j)) →
    (gameLoop rand inp n s).2 = true ∧
    (gameLoop rand inp n s).1.round = 10 ∧
    (gameLoop rand inp n s).1.inIdx = 55 ∧
    (∀ p, p < 10 → (gameLoop rand inp n s).1.board p = seqMove rand p) ∧
    inputToneCount (gameLoop rand inp n s).1.trace = inputToneCount s.trace + (55 - s.inIdx) := by
  intro n
  induction n with
  | zero =>
    intro s h10 hidx hb _
    have hr10 : s.round = 10 := by omega
    have hi55 : s.inIdx = 55 := by rw [hidx, hr10]; exact segSum_ten
    refine ⟨rfl, hr10, hi55, ?_, ?_⟩
    · intro p hp
      exact hb p (by omega)
    · show inputToneCount s.trace = inputToneCount s.trace + (55 - s.inIdx)
      omega
  | succ n ih =>
    intro s h10 hidx hb hok
    have hr : s.round < 10 := by omega
    have hseg1 : segSum 0 (s.round + 1) = segSum 0 s.round + (0 + s.round + 1) :=
      segSum_succ 0 s.round
    have hseg55 : segSum 0 (s.round + 1) ≤ 55 := by
      have := segSum_le_segSum (s.round + 1) 10 (by omega)
      rw [segSum_ten] at this
      exact this
    have hstep : ∀ t, t ≤ s.round → inp (s.inIdx + t) % 256 = seqMove rand t := by
      intro t ht
      have hspec := blockOf_posOf_spec s.round t ht
      have hj : s.inIdx + t = segSum 0 s.round + t := by omega
      have := hok (s.inIdx + t) (by omega) (by omega)
      rw [this, hj, hspec.2]
    rw [round_win rand inp n s hr hb hstep]
    obtain ⟨w1, w2, w3, w4, w5⟩ := ih
      { board := Function.update s.board s.round (seqMove rand s.round),
        round := s.round + 1, c := s.c, inIdx := s.inIdx + (s.round + 1),
        trace := ((s.trace ++ [Event.growEv (seqMove rand s.round)]) ++
          (List.range (s.round + 1)).map (fun j =>
            Event.replayTone (Function.update s.board s.round (seqMove rand s.round) j))) ++
          (List.range' 0 (s.round + 1)).map (fun i =>
            Event.inputTone (Function.update s.board s.round (seqMove rand s.round) i)),
        acc := ((s.acc ++ [((true : Bool), s.round)]) ++
          (List.range (s.round + 1)).map (fun j => ((false : Bool), j))) ++
          (List.range' 0 (s.round + 1)).map (fun i => ((false : Bool), i)) }
      (by show s.round + 1 + n = 10; omega)
      (by show s.inIdx + (s.round + 1) = segSum 0 (s.round + 1); omega)
      (by
        intro p hp
        have hp' : p < s.round + 1 := hp
        show Function.update s.board s.round (seqMove rand s.round) p = seqMove rand p
        rcases Nat.lt_or_ge p s.round with h | h
        · rw [Function.update_noteq (by omega)]
          exact hb p h
        · have hps : p = s.round := by omega
          subst hps
          rw [Function.update_same])
      (by
        intro j hj hj55
        have hj' : s.inIdx + (s.round + 1) ≤ j := hj
        exact hok j (by omega) hj55)
    refine ⟨w1, w2, w3, w4, ?_⟩
    rw [w5]
    have hcnt : inputToneCount (((s.trace ++ [Event.growEv (seqMove rand s.round)]) ++
        (List.range (s.round + 1)).map (fun j =>
          Event.replayTone (Function.update s.board s.round (seqMove rand s.round) j))) ++
        (List.range' 0 (s.round + 1)).map (fun i =>
          Event.inputTone (Function.update s.board s.round (seqMove rand s.round) i))) =
        inputToneCount s.trace + (s.round + 1) := by
      rw [inputToneCount_append, inputToneCount_append, inputToneCount_append]
      rw [(counts_map_replay (List.range (s.round + 1))
        (Function.update s.board s.round (seqMove rand s.round))).2.1]
      rw [(counts_map_inputTone (List.range' 0 (s.round + 1))
        (Function.update s.board s.round (seqMove rand s.round))).2.2]
      simp [inputToneCount, List.length_range']
    show inputToneCount (((s.trace ++ [Event.growEv (seqMove rand s.round)]) ++
        (List.range (s.round + 1)).map (fun j =>
          Event.replayTone (Function.update s.board s.round (seqMove rand s.round) j))) ++
        (List.range' 0 (s.round + 1)).map (fun i =>
          Event.inputTone (Function.update s.board s.round (seqMove rand s.round) i))) +
        (55 - (s.inIdx + (s.round + 1))) =
      inputToneCount s.trace + (55 - s.inIdx)
    rw [hcnt]
    omega

/-- Event counts of the trace a failing round leaves behind: one grow
event, `r` replay tones, `q` feedback tones for the accepted presses, and
one more feedback tone exactly when the failing read `v` is not a
timeout. -/
theorem lossTrace_counts (t0 : List Event) (x : Nat) (B : Nat → Nat) (r q v : Nat) :
    growCount ((((t0 ++ [Event.growEv x]) ++
      (List.range r).map (fun j => Event.replayTone (B j))) ++
      (List.range' 0 q).map (fun i => Event.inputTone (B i))) ++
      (if v = 0 then [] else [Event.inputTone v])) = growCount t0 + 1 ∧
    replayCount ((((t0 ++ [Event.growEv x]) ++
      (List.range r).map (fun j => Event.replayTone (B j))) ++
      (List.range' 0 q).map (fun i => Event.inputTone (B i))) ++
      (if v = 0 then [] else [Event.inputTone v])) = replayCount t0 + r ∧
    inputToneCount ((((t0 ++ [Event.growEv x]) ++
      (List.range r).map (fun j => Event.replayTone (B j))) ++
      (List.range' 0 q).map (fun i => Event.inputTone (B i))) ++
      (if v = 0 then [] else [Event.inputTone v])) =
      inputToneCount t0 + q + (if v = 0 then 0 else 1) := by
  have hgr := counts_map_replay (List.range r) B
  have hgi := counts_map_inputTone (List.range' 0 q) B
  refine ⟨?_, ?_, ?_⟩
  · rw [growCount_append, growCount_append, growCount_append, growCount_append,
      hgr.1, hgi.1]
    by_cases hv : v = 0 <;> simp [hv, growCount]
  · rw [replayCount_append, replayCount_append, replayCount_append, replayCount_append,
      hgr.2.2, hgi.2.1]
    by_cases hv : v = 0 <;> simp [hv, replayCount]
  · rw [inputToneCount_append, inputToneCount_append, inputToneCount_append,
      inputToneCount_append, hgr.2.1, hgi.2.2]
    by_cases hv : v = 0 <;>
      simp [hv, inputToneCount, List.length_range']

/-- A session whose first failing validation call is the `J`-th loses: it
returns `false` right after call `J` (consuming `J+1` inputs), in round
`blockOf J + 1`, with no grow or replay event after the failing round and
one feedback tone per non-timeout call consumed. -/
theorem game_loss (rand inp : Nat → Nat) : ∀ n (s : Sess) (J : Nat),
    s.round + n = 10 →
    s.inIdx = segSum 0 s.round →
    (∀ p, p < s.round → s.board p = seqMove rand p) →
    s.inIdx ≤ J → J < 55 →
    (∀ j, s.inIdx ≤ j → j < J → inp j % 256 = seqMove rand (posOf j)) →
    inp J % 256 ≠ seqMove rand (posOf J) →
    (gameLoop rand inp n s).2 = false ∧
    (gameLoop rand inp n s).1.round = blockOf J + 1 ∧
    (gameLoop rand inp n s).1.inIdx = J + 1 ∧
    (∀ p, p < blockOf J + 1 → (gameLoop rand inp n s).1.board p = seqMove rand p) ∧
    growCount (gameLoop rand inp n s).1.trace = growCount s.trace + (blockOf J + 1 - s.round) ∧
    replayCount (gameLoop rand inp n s).1.trace =
      replayCount s.trace + (segSum 0 (blockOf J + 1) - segSum 0 s.round) ∧
    inputToneCount (gameLoop rand inp n s).1.trace =
      inputToneCount s.trace + (J - s.inIdx) + (if inp J % 256 = 0 then 0 else 1) := by
  intro n
  induction n with
  | zero =>
    intro s J h10 hidx hb hJlo hJ55 hok hbad
    have hr10 : s.round = 10 := by omega
    have hi55 : s.inIdx = 55 := by rw [hidx, hr10]; exact segSum_ten
    exact absurd hJ55 (by omega)
  | succ n ih =>
    intro s J h10 hidx hb hJlo hJ55 hok hbad
    have hr : s.round < 10 := by omega
    obtain ⟨hpR, hJdec⟩ := blockOf_posOf_decomp J
    have hsegR : segSum 0 (blockOf J + 1) = segSum 0 (blockOf J) + (0 + blockOf J + 1) :=
      segSum_succ 0 (blockOf J)
    have hseg1 : segSum 0 (s.round + 1) = segSum 0 s.round + (0 + s.round + 1) :=
      segSum_succ 0 s.round
    have hRr : s.round ≤ blockOf J := by
      by_contra hcon
      have hle : blockOf J + 1 ≤ s.round := by omega
      have := segSum_le_segSum (blockOf J + 1) s.round hle
      omega
    rcases Nat.eq_or_lt_of_le hRr with hcase | hcase
    · -- failure in the current round, at position posOf J
      have hsegBJ : segSum 0 (blockOf J) = segSum 0 s.round := by rw [hcase]
      have hq : posOf J ≤ s.round := by omega
      have hJeq : s.inIdx + posOf J = J := by omega
      have hin : ∀ t, t < posOf J → inp (s.inIdx + t) % 256 = seqMove rand t := by
        intro t ht
        have hspec := blockOf_posOf_spec s.round t (by omega)
        have := hok (s.inIdx + t) (by omega) (by omega)
        rw [this, show s.inIdx + t = segSum 0 s.round + t by omega, hspec.2]
      have hbad' : inp (s.inIdx + posOf J) % 256 ≠ seqMove rand (posOf J) := by
        rw [hJeq]
        exact hbad
      rw [round_fail rand inp n s (posOf J) hr hq hb hin hbad']
      have hc := lossTrace_counts s.trace (seqMove rand s.round)
        (Function.update s.board s.round (seqMove rand s.round)) (s.round + 1) (posOf J)
        (inp (s.inIdx + posOf J) % 256)
      refine ⟨rfl, ?_, ?_, ?_, ?_, ?_, ?_⟩
      · show s.round + 1 = blockOf J + 1
        omega
      · show s.inIdx + posOf J + 1 = J + 1
        omega
      · intro p hp
        have hp' : p < s.round + 1 := by omega
        show Function.update s.board s.round (seqMove rand s.round) p = seqMove rand p
        rcases Nat.lt_or_ge p s.round with h | h
        · rw [Function.update_noteq (by omega)]
          exact hb p h
        · have hps : p = s.round := by omega
          subst hps
          rw [Function.update_same]
      · simp only []
        rw [hc.1]
        omega
      · simp only []
        rw [hc.2.1]
        omega
      · simp only []
        rw [hc.2.2, hJeq]
        omega
    · -- the current round is fully correct; recurse
      have hsegle : segSum 0 (s.round + 1) ≤ segSum 0 (blockOf J) :=
        segSum_le_segSum (s.round + 1) (blockOf J) (by omega)
      have hJhi : segSum 0 (s.round + 1) ≤ J := by omega
      have hstep : ∀ t, t ≤ s.round → inp (s.inIdx + t) % 256 = seqMove rand t := by
        intro t ht
        have hspec := blockOf_posOf_spec s.round t ht
        have := hok (s.inIdx + t) (by omega) (by omega)
        rw [this, show s.inIdx + t = segSum 0 s.round + t by omega, hspec.2]
      rw [round_win rand inp n s hr hb hstep]
      obtain ⟨w1, w2, w3, w4, w5, w6, w7⟩ := ih
        { board := Function.update s.board s.round (seqMove rand s.round),
          round := s.round + 1, c := s.c, inIdx := s.inIdx + (s.round + 1),
          trace := ((s.trace ++ [Event.growEv (seqMove rand s.round)]) ++
            (List.range (s.round + 1)).map (fun j =>
              Event.replayTone (Function.update s.board s.round (seqMove rand s.round) j))) ++
            (List.range' 0 (s.round + 1)).map (fun i =>
              Event.inputTone (Function.update s.board s.round (seqMove rand s.round) i)),
          acc := ((s.acc ++ [((true : Bool), s.round)]) ++
            (List.range (s.round + 1)).map (fun j => ((false : Bool), j))) ++
            (List.range' 0 (s.round + 1)).map (fun i => ((false : Bool), i)) } J
        (by show s.round + 1 + n = 10; omega)
        (by show s.inIdx + (s.round + 1) = segSum 0 (s.round + 1); omega)
        (by
          intro p hp
          have hp' : p < s.round + 1 := hp
          show Function.update s.board s.round (seqMove rand s.round) p = seqMove rand p
          rcases Nat.lt_or_ge p s.round with h | h
          · rw [Function.update_noteq (by omega)]
            exact hb p h
          · have hps : p = s.round := by omega
            subst hps
            rw [Function.update_same])
        (by show s.inIdx + (s.round + 1) ≤ J; omega)
        hJ55
        (by
          intro j hj hjJ
          have hj' : s.inIdx + (s.round + 1) ≤ j := hj
          exact hok j (by omega) hjJ)
        hbad
      have hcnt : growCount (((s.trace ++ [Event.growEv (seqMove rand s.round)]) ++
          (List.range (s.round + 1)).map (fun j =>
            Event.replayTone (Function.update s.board s.round (seqMove rand s.round) j))) ++
          (List.range' 0 (s.round + 1)).map (fun i =>
            Event.inputTone (Function.update s.board s.round (seqMove rand s.round) i))) =
          growCount s.trace + 1 ∧
          replayCount (((s.trace ++ [Event.growEv (seqMove rand s.round)]) ++
          (List.range (s.round + 1)).map (fun j =>
            Event.replayTone (Function.update s.board s.round (seqMove rand s.round) j))) ++
          (List.range' 0 (s.round + 1)).map (fun i =>
            Event.inputTone (Function.update s.board s.round (seqMove rand s.round) i))) =
          replayCount s.trace + (s.round + 1) ∧
          inputToneCount (((s.trace ++ [Event.growEv (seqMove rand s.round)]) ++
          (List.range (s.round + 1)).map (fun j =>
            Event.replayTone (Function.update s.board s.round (seqMove rand s.round) j))) ++
          (List.range' 0 (s.round + 1)).map (fun i =>
            Event.inputTone (Function.update s.board s.round (seqMove rand s.round) i))) =
          inputToneCount s.trace + (s.round + 1) := by
        have hgr := counts_map_replay (List.range (s.round + 1))
          (Function.update s.board s.round (seqMove rand s.round))
        have hgi := counts_map_inputTone (List.range' 0 (s.round + 1))
          (Function.update s.board s.round (seqMove rand s.round))
        refine ⟨?_, ?_, ?_⟩
        · rw [growCount_append, growCount_append, growCount_append, hgr.1, hgi.1]
          simp [growCount]
        · rw [replayCount_append, replayCount_append, replayCount_append, hgr.2.2, hgi.2.1]
          simp [replayCount]
        · rw [inputToneCount_append, inputToneCount_append, inputToneCount_append,
            hgr.2.1, hgi.2.2]
          simp [inputToneCount, List.length_range']
      refine ⟨w1, w2, w3, w4, ?_, ?_, ?_⟩
      · rw [w5]
        simp only []
        rw [hcnt.1]
        omega
      · rw [w6]
        simp only []
        rw [hcnt.2.1]
        omega
      · rw [w7]
        simp only []
        rw [hcnt.2.2]
        omega

/-! ## Session-level wrappers -/

/-- The round block of any of the 55 validation calls of a session is
below 10. -/
theorem blockOf_lt_ten (J : Nat) (h : J < 55) : blockOf J < 10 := by
  obtain ⟨hpR, hdec⟩ := blockOf_posOf_decomp J
  by_contra hc
  have := segSum_le_segSum 10 (blockOf J) (by omega)
  rw [segSum_ten] at this
  omega

/-- `play_memory` with an all-correct input stream: won, 10 rounds, 55
inputs, the board holds the drawn sequence, one feedback tone per input. -/
theorem play_win (rand inp board0 : Nat → Nat)
    (h : ∀ j, j < 55 → inp j % 256 = seqMove rand (posOf j)) :
    (play_memory rand inp board0).2 = true ∧
    (play_memory rand inp board0).1.round = 10 ∧
    (play_memory rand inp board0).1.inIdx = 55 ∧
    (∀ p, p < 10 → (play_memory rand inp board0).1.board p = seqMove rand p) ∧
    inputToneCount (play_memory rand inp board0).1.trace = 55 := by
  have hw := game_win rand inp 10 (initSess board0) (by show 0 + 10 = 10; omega) rfl
    (by intro p hp; simp [initSess] at hp)
    (by intro j hj hj55; exact h j hj55)
  exact ⟨hw.1, hw.2.1, hw.2.2.1, hw.2.2.2.1, hw.2.2.2.2⟩

/-- `play_memory` whose first failing validation call is the `J`-th:
lost, in round `blockOf J + 1`, with `J + 1` inputs consumed, the board
holding the drawn sequence up to that round, exactly one grow event per
started round, exactly the replays of the started rounds, and one
feedback tone per non-timeout call. -/
theorem play_loss (rand inp board0 : Nat → Nat) (J : Nat) (hJ55 : J < 55)
    (hmin : ∀ j, j < J → inp j % 256 = seqMove rand (posOf j))
    (hbad : inp J % 256 ≠ seqMove rand (posOf J)) :
    (play_memory rand inp board0).2 = false ∧
    (play_memory rand inp board0).1.round = blockOf J + 1 ∧
    (play_memory rand inp board0).1.inIdx = J + 1 ∧
    (∀ p, p < blockOf J + 1 → (play_memory rand inp board0).1.board p = seqMove rand p) ∧
    growCount (play_memory rand inp board0).1.trace = blockOf J + 1 ∧
    replayCount (play_memory rand inp board0).1.trace = segSum 0 (blockOf J + 1) ∧
    inputToneCount (play_memory rand inp board0).1.trace =
      J + (if inp J % 256 = 0 then 0 else 1) := by
  have hw := game_loss rand inp 10 (initSess board0) J (by show 0 + 10 = 10; omega) rfl
    (by intro p hp; simp [initSess] at hp)
    (by show 0 ≤ J; omega)
    hJ55
    (by intro j hj hjJ; exact hmin j hjJ)
    hbad
  refine ⟨hw.1, hw.2.1, hw.2.2.1, hw.2.2.2.1, ?_, ?_, ?_⟩
  · have := hw.2.2.2.2.1
    simpa [initSess, growCount] using this
  · have := hw.2.2.2.2.2.1
    simpa [initSess, replayCount, segSum] using this
  · have := hw.2.2.2.2.2.2
    simpa [initSess, inputToneCount] using this

/-- Either every validation call of the (at most 55) session calls would
be answered correctly, or there is a first failing call. -/
theorem play_cases (rand inp : Nat → Nat) :
    (∀ j, j < 55 → inp j % 256 = seqMove rand (posOf j)) ∨
    (∃ J, J < 55 ∧ (∀ j, j < J → inp j % 256 = seqMove rand (posOf j)) ∧
      inp J % 256 ≠ seqMove rand (posOf J)) := by
  by_cases h : ∀ j, j < 55 → inp j % 256 = seqMove rand (posOf j)
  · exact Or.inl h
  · right
    push_neg at h
    obtain ⟨j0, hj0, hne⟩ := h
    have hex : ∃ j, j < 55 ∧ inp j % 256 ≠ seqMove rand (posOf j) := ⟨j0, hj0, hne⟩
    have hf55 : Nat.find hex < 55 := (Nat.find_spec hex).1
    refine ⟨Nat.find hex, hf55, ?_, (Nat.find_spec hex).2⟩
    intro j hj
    by_contra hc
    exact Nat.find_min hex hj ⟨by omega, hc⟩

/-- In every session, the board below the final round holds exactly the
drawn sequence. -/
theorem session_board (rand inp board0 : Nat → Nat) :
    ∀ p, p < (play_memory rand inp board0).1.round →
      (play_memory rand inp board0).1.board p = seqMove rand p := by
  rcases play_cases rand inp with h | ⟨J, hJ55, hmin, hbad⟩
  · have hw := play_win rand inp board0 h
    intro p hp
    exact hw.2.2.2.1 p (by omega)
  · have hw := play_loss rand inp board0 J hJ55 hmin hbad
    intro p hp
    refine hw.2.2.2.1 p ?_
    rw [← hw.2.1]
    exact hp

/-- In every session the final round is at most 10 and at most 55 inputs
are consumed. -/
theorem session_bounds (rand inp board0 : Nat → Nat) :
    (play_memory rand inp board0).1.round ≤ 10 ∧
    (play_memory rand inp board0).1.inIdx ≤ 55 := by
  rcases play_cases rand inp with h | ⟨J, hJ55, hmin, hbad⟩
  · obtain ⟨_, h2, h3, _, _⟩ := play_win rand inp board0 h
    omega
  · obtain ⟨_, h2, h3, _, _, _, _⟩ := play_loss rand inp board0 J hJ55 hmin hbad
    have hB := blockOf_lt_ten J hJ55
    omega

/-! ## Grow-count invariant -/

/-- Guard-failure step of the outer loop. -/
theorem game_step_stop (rand inp : Nat → Nat) (fuel : Nat) (s : Sess)
    (h : ¬s.round < LEVELS_TO_COMPLETE) :
    gameLoop rand inp (fuel + 1) s = (s, true) := by
  simp [gameLoop, h]

theorem grown_round (rand : Nat → Nat) (s : Sess) :
    (playMoves (add_to_moves rand s)).round = (s.round + 1) % 256 := rfl

theorem grown_growCount (rand : Nat → Nat) (s : Sess) :
    growCount (playMoves (add_to_moves rand s)).trace = growCount s.trace + 1 := by
  show growCount ((s.trace ++ [Event.growEv (convertButton (rand s.round % NO_OF_LEDS))]) ++
    (List.range ((s.round + 1) % 256)).map (fun j => Event.replayTone
      (Function.update s.board s.round (convertButton (rand s.round % NO_OF_LEDS)) j))) =
    growCount s.trace + 1
  rw [growCount_append, growCount_append,
    (counts_map_replay (List.range ((s.round + 1) % 256))
      (Function.update s.board s.round (convertButton (rand s.round % NO_OF_LEDS)))).1]
  simp [growCount]

/-- Invariant: the number of grow events in the trace always equals
`gameRound`, and `gameRound` stays at most 10 throughout the outer loop. -/
theorem grow_inv (rand inp : Nat → Nat) : ∀ n (s : Sess),
    growCount s.trace = s.round → s.round ≤ 10 →
    growCount (gameLoop rand inp n s).1.trace = (gameLoop rand inp n s).1.round ∧
    (gameLoop rand inp n s).1.round ≤ 10 := by
  intro n
  induction n with
  | zero =>
    intro s hg h10
    exact ⟨hg, h10⟩
  | succ n ih =>
    intro s hg h10
    by_cases hr : s.round < LEVELS_TO_COMPLETE
    · have hr10 : s.round < 10 := hr
      simp only [gameLoop]
      rw [if_pos hr]
      have hround : (playMoves (add_to_moves rand s)).round = s.round + 1 := by
        rw [grown_round]
        exact Nat.mod_eq_of_lt (by omega)
      rcases hval : validateLoop inp (playMoves (add_to_moves rand s)).round 0
        (playMoves (add_to_moves rand s)) with ⟨s3, ob⟩
      have hp := val_pres inp (playMoves (add_to_moves rand s)).round 0
        (playMoves (add_to_moves rand s))
      rw [hval] at hp
      have hs3r : s3.round = s.round + 1 := by rw [hp.1, hround]
      have hs3g : growCount s3.trace = s.round + 1 := by
        rw [hp.2.2.2.1, grown_growCount, hg]
      cases ob with
      | none =>
        exact ih s3 (by omega) (by omega)
      | some b =>
        refine ⟨?_, ?_⟩
        · show growCount s3.trace = s3.round
          omega
        · show s3.round ≤ 10
          omega
    · rw [game_step_stop rand inp n s hr]
      exact ⟨hg, h10⟩

/-! ## Access-log safety -/

theorem writesAcc_append (w : List Nat) (l1 l2 : List (Bool × Nat)) :
    writesAcc w (l1 ++ l2) = writesAcc (writesAcc w l1) l2 :=
  List.foldl_append _ _ _ _

theorem accOk_append (l1 l2 : List (Bool × Nat)) : ∀ w,
    accOk w (l1 ++ l2) = (accOk w l1 && accOk (writesAcc w l1) l2) := by
  induction l1 with
  | nil =>
    intro w
    simp [accOk, writesAcc]
  | cons e l ih =>
    intro w
    rcases e with ⟨b, i⟩
    cases b
    · simp [accOk, writesAcc, ih, Bool.and_assoc]
    · simp [accOk, writesAcc, ih, Bool.and_assoc]

/-- Every index in a log accepted by `accOk` is below 32 (indeed below
10). -/
theorem accOk_all32 (l : List (Bool × Nat)) : ∀ w, accOk w l = true →
    l.all (fun e => decide (e.2 < 32)) = true := by
  induction l with
  | nil =>
    intro w _
    rfl
  | cons e l ih =>
    intro w h
    rcases e with ⟨b, i⟩
    cases b
    · simp only [accOk, Bool.and_eq_true, decide_eq_true_eq, LEVELS_TO_COMPLETE] at h
      simp only [List.all_cons, Bool.and_eq_true, decide_eq_true_eq]
      obtain ⟨⟨hi10, _⟩, hrest⟩ := h
      exact ⟨by omega, ih w hrest⟩
    · simp only [accOk, Bool.and_eq_true, decide_eq_true_eq, LEVELS_TO_COMPLETE] at h
      simp only [List.all_cons, Bool.and_eq_true, decide_eq_true_eq]
      obtain ⟨hi10, hrest⟩ := h
      exact ⟨by omega, ih (i :: w) hrest⟩

theorem writesAcc_reads (ixs : List Nat) : ∀ w,
    writesAcc w (ixs.map (fun i => ((false : Bool), i))) = w := by
  induction ixs with
  | nil =>
    intro w
    rfl
  | cons i l ih =>
    intro w
    exact ih w

/-- A block of reads passes the checker when every read index is in range
and already written. -/
theorem acc_reads (ixs : List Nat) : ∀ w,
    (∀ i, i ∈ ixs → i < LEVELS_TO_COMPLETE ∧ i ∈ w) →
    accOk w (ixs.map (fun i => ((false : Bool), i))) = true := by
  induction ixs with
  | nil =>
    intro w _
    rfl
  | cons i l ih =>
    intro w hall
    have hi := hall i (List.mem_cons_self i l)
    simp only [List.map_cons, accOk, Bool.and_eq_true, decide_eq_true_eq]
    refine ⟨⟨hi.1, List.elem_eq_true_of_mem hi.2⟩, ?_⟩
    exact ih w (fun j hj => hall j (List.mem_cons_of_mem i hj))

/-- The grow step writes the fresh index and keeps the log well-formed. -/
theorem acc_add (rand : Nat → Nat) (s : Sess) (hr : s.round < 10)
    (h1 : accOk [] s.acc = true) (h2 : ∀ i, i < s.round → i ∈ writesAcc [] s.acc) :
    accOk [] (add_to_moves rand s).acc = true ∧
    (∀ i, i < (add_to_moves rand s).round → i ∈ writesAcc [] (add_to_moves rand s).acc) := by
  constructor
  · show accOk [] (s.acc ++ [((true : Bool), s.round)]) = true
    rw [accOk_append]
    simp only [h1, Bool.true_and]
    simp [accOk, LEVELS_TO_COMPLETE, hr]
  · intro i hi
    have hi' : i < (s.round + 1) % 256 := hi
    rw [Nat.mod_eq_of_lt (by omega)] at hi'
    show i ∈ writesAcc [] (s.acc ++ [((true : Bool), s.round)])
    rw [writesAcc_append]
    show i ∈ s.round :: writesAcc [] s.acc
    rcases Nat.lt_or_ge i s.round with h | h
    · exact List.mem_cons_of_mem _ (h2 i h)
    · have hieq : i = s.round := by omega
      subst hieq
      exact List.mem_cons_self _ _

/-- The replay step only reads already-written indices. -/
theorem acc_play (s : Sess) (h10 : s.round ≤ 10)
    (h1 : accOk [] s.acc = true) (h2 : ∀ i, i < s.round → i ∈ writesAcc [] s.acc) :
    accOk [] (playMoves s).acc = true ∧
    (∀ i, i < (playMoves s).round → i ∈ writesAcc [] (playMoves s).acc) := by
  have hreads : accOk (writesAcc [] s.acc)
      ((List.range s.round).map (fun i => ((false : Bool), i))) = true := by
    refine acc_reads (List.range s.round) (writesAcc [] s.acc) ?_
    intro i hi
    rw [List.mem_range] at hi
    exact ⟨by show i < 10; omega, h2 i hi⟩
  constructor
  · show accOk [] (s.acc ++ (List.range s.round).map (fun i => ((false : Bool), i))) = true
    rw [accOk_append]
    simp [h1, hreads]
  · intro i hi
    show i ∈ writesAcc [] (s.acc ++ (List.range s.round).map (fun i => ((false : Bool), i)))
    rw [writesAcc_append, writesAcc_reads]
    exact h2 i hi

/-- The validation loop only reads already-written indices. -/
theorem acc_val (inp : Nat → Nat) : ∀ fuel cm (s : Sess),
    accOk [] s.acc = true → (∀ i, i < s.round → i ∈ writesAcc [] s.acc) → s.round ≤ 10 →
    accOk [] (validateLoop inp fuel cm s).1.acc = true ∧
    (∀ i, i < (validateLoop inp fuel cm s).1.round →
      i ∈ writesAcc [] (validateLoop inp fuel cm s).1.acc) := by
  intro fuel
  induction fuel with
  | zero =>
    intro cm s h1 h2 h10
    exact ⟨h1, h2⟩
  | succ fuel ih =>
    intro cm s h1 h2 h10
    by_cases hguard : cm < s.round
    · by_cases h0 : inp s.inIdx % 256 = 0
      · rw [val_step_timeout inp fuel cm s hguard h0]
        exact ⟨h1, h2⟩
      · have hcmOk : accOk [] (s.acc ++ [((false : Bool), cm)]) = true := by
          rw [accOk_append]
          simp only [h1, Bool.true_and]
          simp only [accOk, Bool.and_eq_true, decide_eq_true_eq]
          refine ⟨⟨by show cm < 10; omega, ?_⟩, trivial⟩
          exact List.elem_eq_true_of_mem (h2 cm hguard)
        have hcmW : writesAcc [] (s.acc ++ [((false : Bool), cm)]) = writesAcc [] s.acc := by
          rw [writesAcc_append]
          rfl
        by_cases hne : inp s.inIdx % 256 = s.board cm
        · rw [val_step_okpos inp fuel cm s hguard h0 hne]
          refine ih (cm + 1)
            { board := s.board, round := s.round, c := s.c, inIdx := s.inIdx + 1,
              trace := s.trace ++ [Event.inputTone (s.board cm)],
              acc := s.acc ++ [((false : Bool), cm)] } hcmOk ?_ h10
          intro i hi
          show i ∈ writesAcc [] (s.acc ++ [((false : Bool), cm)])
          rw [hcmW]
          exact h2 i hi
        · rw [val_step_wrong inp fuel cm s hguard h0 hne]
          refine ⟨hcmOk, ?_⟩
          intro i hi
          show i ∈ writesAcc [] (s.acc ++ [((false : Bool), cm)])
          rw [hcmW]
          exact h2 i hi
    · rw [val_step_done inp fuel cm s hguard]
      exact ⟨h1, h2⟩

/-- The whole outer loop keeps the access log well-formed. -/
theorem acc_game (rand inp : Nat → Nat) : ∀ n (s : Sess),
    accOk [] s.acc = true → (∀ i, i < s.round → i ∈ writesAcc [] s.acc) → s.round ≤ 10 →
    accOk [] (gameLoop rand inp n s).1.acc = true := by
  intro n
  induction n with
  | zero =>
    intro s h1 _ _
    exact h1
  | succ n ih =>
    intro s h1 h2 h10
    by_cases hr : s.round < LEVELS_TO_COMPLETE
    · have hr10 : s.round < 10 := hr
      simp only [gameLoop]
      rw [if_pos hr]
      have hadd := acc_add rand s hr10 h1 h2
      have haddr : (add_to_moves rand s).round = s.round + 1 := by
        show (s.round + 1) % 256 = s.round + 1
        exact Nat.mod_eq_of_lt (by omega)
      have hplay := acc_play (add_to_moves rand s) (by rw [haddr]; omega) hadd.1 hadd.2
      have hplayr : (playMoves (add_to_moves rand s)).round = s.round + 1 := by
        rw [grown_round]
        exact Nat.mod_eq_of_lt (by omega)
      have hval2 := acc_val inp (playMoves (add_to_moves rand s)).round 0
        (playMoves (add_to_moves rand s)) hplay.1 hplay.2 (by rw [hplayr]; omega)
      have hvr := (val_pres inp (playMoves (add_to_moves rand s)).round 0
        (playMoves (add_to_moves rand s))).1
      rcases hval : validateLoop inp (playMoves (add_to_moves rand s)).round 0
        (playMoves (add_to_moves rand s)) with ⟨s3, ob⟩
      rw [hval] at hval2 hvr
      cases ob with
      | none =>
        refine ih s3 hval2.1 hval2.2 ?_
        rw [hvr, hplayr]
        omega
      | some b =>
        exact hval2.1
    · rw [game_step_stop rand inp n s hr]
      exact h1

/-! ## Equivalence with the variant without the micro-retry loop -/

theorem valS_eq (inp : Nat → Nat) : ∀ fuel cm (s : Sess),
    validateLoop inp fuel cm s = validateLoopS inp fuel cm s := by
  intro fuel
  induction fuel with
  | zero =>
    intro cm s
    rfl
  | succ fuel ih =>
    intro cm s
    by_cases hguard : cm < s.round
    · by_cases h0 : inp s.inIdx % 256 = 0
      · rw [val_step_timeout inp fuel cm s hguard h0]
        simp [validateLoopS, wait_for_button, CHOICE_NONE, h0, hguard]
      · by_cases hne : inp s.inIdx % 256 = s.board cm
        · rw [val_step_okpos inp fuel cm s hguard h0 hne]
          rw [ih (cm + 1)]
          have hb0 : s.board cm ≠ 0 := by rw [← hne]; exact h0
          simp [validateLoopS, wait_for_button, CHOICE_NONE, h0, hguard, hne, hb0]
        · rw [val_step_wrong inp fuel cm s hguard h0 hne]
          simp [validateLoopS, wait_for_button, CHOICE_NONE, h0, hguard, hne]
    · rw [val_step_done inp fuel cm s hguard]
      simp [validateLoopS, hguard]

theorem gameS_eq (rand inp : Nat → Nat) : ∀ fuel (s : Sess),
    gameLoop rand inp fuel s = gameLoopS rand inp fuel s := by
  intro fuel
  induction fuel with
  | zero =>
    intro s
    rfl
  | succ fuel ih =>
    intro s
    by_cases hr : s.round < LEVELS_TO_COMPLETE
    · simp only [gameLoop, gameLoopS]
      rw [if_pos hr, if_pos hr, ← valS_eq inp]
      rcases hval : validateLoop inp (playMoves (add_to_moves rand s)).round 0
        (playMoves (add_to_moves rand s)) with ⟨s3, ob⟩
      cases ob with
      | none =>
        exact ih s3
      | some b =>
        rfl
    · simp [gameLoop, gameLoopS, hr]

/-! ## Claims -/

/-- C1: for every random stream, if the input source returns, at every
validation position of every round (the call for position `p` of round
`r+1` is call `segSum 0 r + p`), exactly the move stored at that position
of the sequence, then `play_memory` returns won (`true`) and terminates
with `gameRound = LEVELS_TO_COMPLETE = 10`. -/
theorem claim_C1 : ∀ rand inp board0 : Nat → Nat,
    (∀ r < LEVELS_TO_COMPLETE, ∀ p ≤ r, inp (segSum 0 r + p) % 256 = seqMove rand p) →
    (play_memory rand inp board0).2 = true ∧
    (play_memory rand inp board0).1.round = LEVELS_TO_COMPLETE := by
  intro rand inp board0 h
  have hok : ∀ j, j < 55 → inp j % 256 = seqMove rand (posOf j) := by
    intro j hj
    obtain ⟨hpR, hdec⟩ := blockOf_posOf_decomp j
    have hR10 : blockOf j < 10 := blockOf_lt_ten j hj
    have hx := h (blockOf j) hR10 (posOf j) hpR
    rw [hdec] at hx
    exact hx
  have hw := play_win rand inp board0 hok
  exact ⟨hw.1, hw.2.1⟩

/-- Witness for C1: the constant-blue random stream answered by constant
blue presses wins in 10 rounds. -/
theorem claim_C1_witness :
    (play_memory (fun _ => 0) (fun _ => 2) (fun _ => 0)).2 = true ∧
    (play_memory (fun _ => 0) (fun _ => 2) (fun _ => 0)).1.round = LEVELS_TO_COMPLETE :=
  claim_C1 (fun _ => 0) (fun _ => 2) (fun _ => 0) (by decide)

/-- C2: `play_memory` returns lost (`false`) iff some validation call
either times out or returns a move different from the sequence entry at
its position (call `j` expects `seqMove rand (posOf j)`, and a timeout
`0` never equals it); moreover the loss is immediate and terminal: when
the first failing call is the `J`-th, exactly `J+1` inputs are consumed
and the final trace holds exactly the `blockOf J + 1` grow events and
`segSum 0 (blockOf J + 1)` replay tones of the rounds started up to the
failure — none after it. -/
theorem claim_C2 : ∀ rand inp board0 : Nat → Nat,
    ((play_memory rand inp board0).2 = false ↔
      ∃ j, j < 55 ∧ inp j % 256 ≠ seqMove rand (posOf j)) ∧
    (∀ J, J < 55 → (∀ j, j < J → inp j % 256 = seqMove rand (posOf j)) →
      inp J % 256 ≠ seqMove rand (posOf J) →
      (play_memory rand inp board0).2 = false ∧
      (play_memory rand inp board0).1.inIdx = J + 1 ∧
      growCount (play_memory rand inp board0).1.trace = blockOf J + 1 ∧
      replayCount (play_memory rand inp board0).1.trace = segSum 0 (blockOf J + 1)) := by
  intro rand inp board0
  constructor
  · constructor
    · intro hfalse
      by_contra hno
      push_neg at hno
      have hw := play_win rand inp board0 hno
      rw [hw.1] at hfalse
      exact Bool.noConfusion hfalse
    · rintro ⟨j0, hj0, hne⟩
      rcases play_cases rand inp with hall | ⟨J, hJ55, hmin, hbad⟩
      · exact absurd (hall j0 hj0) hne
      · exact (play_loss rand inp board0 J hJ55 hmin hbad).1
  · intro J hJ55 hmin hbad
    obtain ⟨w1, w2, w3, w4, w5, w6, w7⟩ := play_loss rand inp board0 J hJ55 hmin hbad
    exact ⟨w1, w3, w5, w6⟩

/-- Witness for C2: a wrong first press (yellow against a blue sequence)
loses immediately: one input consumed, one grow event, one replay tone. -/
theorem claim_C2_witness :
    (play_memory (fun _ => 0) (fun _ => 4) (fun _ => 0)).2 = false ∧
    (play_memory (fun _ => 0) (fun _ => 4) (fun _ => 0)).1.inIdx = 0 + 1 ∧
    growCount (play_memory (fun _ => 0) (fun _ => 4) (fun _ => 0)).1.trace = blockOf 0 + 1 ∧
    replayCount (play_memory (fun _ => 0) (fun _ => 4) (fun _ => 0)).1.trace =
      segSum 0 (blockOf 0 + 1) :=
  (claim_C2 (fun _ => 0) (fun _ => 4) (fun _ => 0)).2 0 (by decide)
    (fun j hj => absurd hj (Nat.not_lt_zero j)) (by decide)

/-- C3: at session start `gameRound` is 0 and the trace is empty whatever
board a prior session left; each grow step appends exactly one grow event
and (below the level cap) increments `gameRound` by 1; throughout the
loop the number of grow events equals `gameRound`, which never exceeds
`LEVELS_TO_COMPLETE`, and so also at the end of every session. -/
theorem claim_C3 :
    (∀ board0 : Nat → Nat, (initSess board0).round = 0 ∧ (initSess board0).trace = []) ∧
    (∀ (rand : Nat → Nat) (s : Sess),
      growCount (add_to_moves rand s).trace = growCount s.trace + 1 ∧
      (s.round < LEVELS_TO_COMPLETE → (add_to_moves rand s).round = s.round + 1)) ∧
    (∀ (rand inp : Nat → Nat) (n : Nat) (s : Sess),
      growCount s.trace = s.round → s.round ≤ LEVELS_TO_COMPLETE →
      growCount (gameLoop rand inp n s).1.trace = (gameLoop rand inp n s).1.round ∧
      (gameLoop rand inp n s).1.round ≤ LEVELS_TO_COMPLETE) ∧
    (∀ rand inp board0 : Nat → Nat,
      growCount (play_memory rand inp board0).1.trace = (play_memory rand inp board0).1.round ∧
      (play_memory rand inp board0).1.round ≤ LEVELS_TO_COMPLETE) := by
  refine ⟨fun board0 => ⟨rfl, rfl⟩, ?_, ?_, ?_⟩
  · intro rand s
    constructor
    · show growCount (s.trace ++ [Event.growEv (convertButton (rand s.round % NO_OF_LEDS))]) =
        growCount s.trace + 1
      rw [growCount_append]
      simp [growCount]
    · intro hr
      show (s.round + 1) % 256 = s.round + 1
      exact Nat.mod_eq_of_lt (by have hr10 : s.round < 10 := hr; omega)
  · intro rand inp n s hg h10
    exact grow_inv rand inp n s hg h10
  · intro rand inp board0
    exact grow_inv rand inp 10 (initSess board0) rfl (Nat.zero_le 10)

/-- Witness for C3: concrete grow step and a concrete full session. -/
theorem claim_C3_witness :
    growCount (add_to_moves (fun _ => 0) (initSess (fun _ => 0))).trace =
      growCount (initSess (fun _ => 0)).trace + 1 ∧
    (add_to_moves (fun _ => 0) (initSess (fun _ => 0))).round =
      (initSess (fun _ => 0)).round + 1 ∧
    growCount (play_memory (fun _ => 0) (fun _ => 2) (fun _ => 0)).1.trace =
      (play_memory (fun _ => 0) (fun _ => 2) (fun _ => 0)).1.round :=
  ⟨(claim_C3.2.1 (fun _ => 0) (initSess (fun _ => 0))).1,
   (claim_C3.2.1 (fun _ => 0) (initSess (fun _ => 0))).2 (by decide),
   (claim_C3.2.2.2 (fun _ => 0) (fun _ => 2) (fun _ => 0)).1⟩

/-- C4: if the first validation call of the session times out
(`wait_for_button` returns `CHOICE_NONE`), `play_memory` returns lost
(`false`) and terminates with `gameRound = 1`. -/
theorem claim_C4 : ∀ rand inp board0 : Nat → Nat,
    inp 0 % 256 = CHOICE_NONE →
    (play_memory rand inp board0).2 = false ∧
    (play_memory rand inp board0).1.round = 1 := by
  intro rand inp board0 h0
  have hbad : inp 0 % 256 ≠ seqMove rand (posOf 0) := by
    rw [h0]
    intro hc
    exact seqMove_ne_zero rand (posOf 0) hc.symm
  obtain ⟨w1, w2, _⟩ := play_loss rand inp board0 0 (by omega)
    (fun j hj => absurd hj (Nat.not_lt_zero j)) hbad
  exact ⟨w1, w2⟩

/-- Witness for C4: the always-timeout input stream loses with round 1. -/
theorem claim_C4_witness :
    (play_memory (fun _ => 0) (fun _ => 0) (fun _ => 0)).2 = false ∧
    (play_memory (fun _ => 0) (fun _ => 0) (fun _ => 0)).1.round = 1 :=
  claim_C4 (fun _ => 0) (fun _ => 0) (fun _ => 0) (by decide)

/-- C5 counterexample: a session whose single validation call times out
completes zero rounds successfully, yet ends with `gameRound = 1` — the
counter is incremented in the grow step at round start, not only after
the whole current sequence has been validated as the claim states. -/
theorem claim_C5_counterexample :
    (play_memory (fun _ => 0) (fun _ => 0) (fun _ => 0)).2 = false ∧
    (play_memory (fun _ => 0) (fun _ => 0) (fun _ => 0)).1.inIdx = 1 ∧
    (fun _ => (0 : Nat)) 0 % 256 = CHOICE_NONE ∧
    (play_memory (fun _ => 0) (fun _ => 0) (fun _ => 0)).1.round = 1 := by
  decide

/-- C5 (amended): `gameRound` is 0 at session start and is incremented by
exactly 1 per round, in the grow step at the start of the round (before
validation); the validation and replay phases never change it, so after a
successfully completed round it exceeds its value at that round's start
by exactly 1. -/
theorem claim_C5 :
    (∀ board0 : Nat → Nat, (initSess board0).round = 0) ∧
    (∀ (rand : Nat → Nat) (s : Sess), s.round < LEVELS_TO_COMPLETE →
      (add_to_moves rand s).round = s.round + 1) ∧
    (∀ (inp : Nat → Nat) (fuel cm : Nat) (s : Sess),
      (validateLoop inp fuel cm s).1.round = s.round) ∧
    (∀ s : Sess, (playMoves s).round = s.round) ∧
    (∀ (rand inp : Nat → Nat) (s : Sess), s.round < LEVELS_TO_COMPLETE →
      (validateLoop inp (playMoves (add_to_moves rand s)).round 0
        (playMoves (add_to_moves rand s))).1.round = s.round + 1) := by
  refine ⟨fun _ => rfl, ?_, ?_, fun _ => rfl, ?_⟩
  · intro rand s hr
    show (s.round + 1) % 256 = s.round + 1
    exact Nat.mod_eq_of_lt (by have hr10 : s.round < 10 := hr; omega)
  · intro inp fuel cm s
    exact (val_pres inp fuel cm s).1
  · intro rand inp s hr
    rw [(val_pres inp (playMoves (add_to_moves rand s)).round 0
      (playMoves (add_to_moves rand s))).1, grown_round]
    exact Nat.mod_eq_of_lt (by have hr10 : s.round < 10 := hr; omega)

/-- Witness for C5 (amended): concrete round increment. -/
theorem claim_C5_witness :
    (add_to_moves (fun _ => 0) (initSess (fun _ => 0))).round =
      (initSess (fun _ => 0)).round + 1 ∧
    (validateLoop (fun _ => 2)
        (playMoves (add_to_moves (fun _ => 0) (initSess (fun _ => 0)))).round 0
        (playMoves (add_to_moves (fun _ => 0) (initSess (fun _ => 0))))).1.round =
      (initSess (fun _ => 0)).round + 1 :=
  ⟨claim_C5.2.1 (fun _ => 0) (initSess (fun _ => 0)) (by decide),
   claim_C5.2.2.2.2 (fun _ => 0) (fun _ => 2) (initSess (fun _ => 0)) (by decide)⟩

/-- C6: the four choice codes are pairwise distinct and nonzero, the draw
conversion is a bijection from `{0,1,2,3}` onto them (so a uniform draw
yields a uniform move, independent of earlier entries), every move the
grow step appends is one of the four codes, and no sequence entry of any
session ever equals the timeout value `CHOICE_NONE = 0`. -/
theorem claim_C6 :
    (CHOICE_BLUE ≠ CHOICE_NONE ∧ CHOICE_YELLOW ≠ CHOICE_NONE ∧
     CHOICE_RED ≠ CHOICE_NONE ∧ CHOICE_GREEN ≠ CHOICE_NONE ∧
     CHOICE_BLUE ≠ CHOICE_YELLOW ∧ CHOICE_BLUE ≠ CHOICE_RED ∧ CHOICE_BLUE ≠ CHOICE_GREEN ∧
     CHOICE_YELLOW ≠ CHOICE_RED ∧ CHOICE_YELLOW ≠ CHOICE_GREEN ∧
     CHOICE_RED ≠ CHOICE_GREEN) ∧
    (∀ m < NO_OF_LEDS, ∀ n < NO_OF_LEDS, convertButton m = convertButton n → m = n) ∧
    (∀ n < NO_OF_LEDS,
      convertButton n ∈ ({CHOICE_BLUE, CHOICE_YELLOW, CHOICE_RED, CHOICE_GREEN} : Finset Nat)) ∧
    (∀ y ∈ ({CHOICE_BLUE, CHOICE_YELLOW, CHOICE_RED, CHOICE_GREEN} : Finset Nat),
      ∃ n ∈ Finset.range NO_OF_LEDS, convertButton n = y) ∧
    (∀ (rand : Nat → Nat) (s : Sess),
      (add_to_moves rand s).board s.round ∈
        ({CHOICE_BLUE, CHOICE_YELLOW, CHOICE_RED, CHOICE_GREEN} : Finset Nat) ∧
      (add_to_moves rand s).board s.round ≠ CHOICE_NONE) ∧
    (∀ rand inp board0 : Nat → Nat, ∀ p, p < (play_memory rand inp board0).1.round →
      (play_memory rand inp board0).1.board p = seqMove rand p ∧
      (play_memory rand inp board0).1.board p ≠ CHOICE_NONE) := by
  have hmem : ∀ k, k < 4 →
      convertButton k ∈ ({CHOICE_BLUE, CHOICE_YELLOW, CHOICE_RED, CHOICE_GREEN} : Finset Nat) ∧
      convertButton k ≠ 0 := by decide
  refine ⟨by decide, by decide, by decide, by decide, ?_, ?_⟩
  · intro rand s
    have hk : rand s.round % NO_OF_LEDS < 4 := Nat.mod_lt _ (by decide)
    have hupd : (add_to_moves rand s).board s.round =
        convertButton (rand s.round % NO_OF_LEDS) := by
      show Function.update s.board s.round (convertButton (rand s.round % NO_OF_LEDS)) s.round =
        convertButton (rand s.round % NO_OF_LEDS)
      rw [Function.update_same]
    rw [hupd]
    exact hmem (rand s.round % NO_OF_LEDS) hk
  · intro rand inp board0 p hp
    have hb := session_board rand inp board0 p hp
    refine ⟨hb, ?_⟩
    rw [hb]
    exact seqMove_ne_zero rand p

/-- Witness for C6: concrete instances of the quantified parts. -/
theorem claim_C6_witness :
    (0 : Nat) = 0 ∧
    (add_to_moves (fun _ => 3) (initSess (fun _ => 0))).board 0 ≠ CHOICE_NONE ∧
    (play_memory (fun _ => 0) (fun _ => 2) (fun _ => 0)).1.board 0 = seqMove (fun _ => 0) 0 :=
  ⟨claim_C6.2.1 0 (by decide) 0 (by decide) rfl,
   (claim_C6.2.2.2.2.1 (fun _ => 3) (initSess (fun _ => 0))).2,
   (claim_C6.2.2.2.2.2 (fun _ => 0) (fun _ => 2) (fun _ => 0) 0 (by decide)).1⟩

/-- C7 counterexample: with a blue sequence and a wrong yellow first
press, the session is lost at that press, yet its feedback tone
`inputTone 4` is in the trace — the engine renders feedback for a
rejected (wrong) move, contradicting "feedback iff accepted". -/
theorem claim_C7_counterexample :
    (play_memory (fun _ => 0) (fun _ => 4) (fun _ => 0)).2 = false ∧
    (play_memory (fun _ => 0) (fun _ => 4) (fun _ => 0)).1.board 0 = CHOICE_BLUE ∧
    (fun _ => (4 : Nat)) 0 % 256 ≠ CHOICE_BLUE ∧
    Event.inputTone 4 ∈ (play_memory (fun _ => 0) (fun _ => 4) (fun _ => 0)).1.trace := by
  decide

/-- C7 (amended): validation feedback is rendered iff the read is not a
timeout: `wait_for_button` plays the tone of whatever press it detects
(right or wrong) and none on timeout; consequently a session's trace
holds one feedback tone per consumed non-timeout call — all 55 on a win,
and on a loss at first failing call `J` exactly `J` plus one more iff the
failing call was an actual (wrong) press rather than a timeout. -/
theorem claim_C7 :
    (∀ (inp : Nat → Nat) (i : Nat),
      wait_for_button inp i =
        (if inp i % 256 = CHOICE_NONE then ((CHOICE_NONE, []) : Nat × List Event)
         else (inp i % 256, [Event.inputTone (inp i % 256)]))) ∧
    (∀ rand inp board0 : Nat → Nat,
      (∀ j, j < 55 → inp j % 256 = seqMove rand (posOf j)) →
      inputToneCount (play_memory rand inp board0).1.trace = 55) ∧
    (∀ (rand inp board0 : Nat → Nat) (J : Nat), J < 55 →
      (∀ j, j < J → inp j % 256 = seqMove rand (posOf j)) →
      inp J % 256 ≠ seqMove rand (posOf J) →
      inputToneCount (play_memory rand inp board0).1.trace =
        J + (if inp J % 256 = CHOICE_NONE then 0 else 1)) := by
  refine ⟨fun inp i => rfl, ?_, ?_⟩
  · intro rand inp board0 h
    exact (play_win rand inp board0 h).2.2.2.2
  · intro rand inp board0 J hJ55 hmin hbad
    exact (play_loss rand inp board0 J hJ55 hmin hbad).2.2.2.2.2.2

/-- Witness for C7 (amended): the all-timeout session renders no feedback
tone at all. -/
theorem claim_C7_witness :
    inputToneCount (play_memory (fun _ => 0) (fun _ => 0) (fun _ => 0)).1.trace =
      0 + (if (fun _ => (0 : Nat)) 0 % 256 = CHOICE_NONE then 0 else 1) :=
  claim_C7.2.2 (fun _ => 0) (fun _ => 0) (fun _ => 0) 0 (by decide)
    (fun j hj => absurd hj (Nat.not_lt_zero j)) (by decide)

/-- C8: `play_memory` with the dead micro-retry loop (`while (c < 3)`) in
its timeout branch is extensionally equal — same outcome and same final
state for every random stream, input stream and prior board — to the
variant whose timeout branch returns `false` immediately; the loop has no
behavioral effect. -/
theorem claim_C8 : ∀ rand inp board0 : Nat → Nat,
    play_memory rand inp board0 = play_memory_simple rand inp board0 :=
  fun rand inp board0 => gameS_eq rand inp LEVELS_TO_COMPLETE (initSess board0)

/-- C9: in every session, every `gameBoard` access (the grow-step write,
the replay reads and the validation-compare reads) uses an index below
`LEVELS_TO_COMPLETE = 10` — within the declared capacity of 32 — and
every index read was written earlier in the same session, so no stale or
uninitialized entry is ever read. -/
theorem claim_C9 : ∀ rand inp board0 : Nat → Nat,
    accOk [] (play_memory rand inp board0).1.acc = true ∧
    (play_memory rand inp board0).1.acc.all (fun e => decide (e.2 < 32)) = true := by
  intro rand inp board0
  have h := acc_game rand inp 10 (initSess board0) rfl
    (fun i hi => absurd hi (Nat.not_lt_zero i)) (Nat.zero_le 10)
  exact ⟨h, accOk_all32 _ [] h⟩

/-- C10: `play_memory` terminates for every random and input stream: each
completed outer iteration increments `gameRound` by exactly 1 toward the
bound, the validation loop preserves `gameRound` and consumes at most
`gameRound - currentMove` inputs, the replay loop plays exactly
`gameRound` tones, and every session ends with `gameRound ≤ 10` after at
most 55 input calls. -/
theorem claim_C10 :
    (∀ (rand : Nat → Nat) (s : Sess), s.round < LEVELS_TO_COMPLETE →
      (add_to_moves rand s).round = s.round + 1) ∧
    (∀ (inp : Nat → Nat) (fuel cm : Nat) (s : Sess),
      (validateLoop inp fuel cm s).1.round = s.round ∧
      (validateLoop inp fuel cm s).1.inIdx ≤ s.inIdx + (s.round - cm)) ∧
    (∀ s : Sess, (playMoves s).trace.length = s.trace.length + s.round) ∧
    (∀ rand inp board0 : Nat → Nat,
      (play_memory rand inp board0).1.round ≤ LEVELS_TO_COMPLETE ∧
      (play_memory rand inp board0).1.inIdx ≤ 55) := by
  refine ⟨?_, ?_, ?_, ?_⟩
  · intro rand s hr
    show (s.round + 1) % 256 = s.round + 1
    exact Nat.mod_eq_of_lt (by have hr10 : s.round < 10 := hr; omega)
  · intro inp fuel cm s
    exact ⟨(val_pres inp fuel cm s).1, (val_pres inp fuel cm s).2.2.2.2.2⟩
  · intro s
    show (s.trace ++ (List.range s.round).map (fun j => Event.replayTone (s.board j))).length =
      s.trace.length + s.round
    rw [List.length_append, List.length_map, List.length_range]
  · intro rand inp board0
    exact session_bounds rand inp board0

/-- Witness for C10: concrete round increment at round 0. -/
theorem claim_C10_witness :
    (add_to_moves (fun _ => 1) (initSess (fun _ => 0))).round =
      (initSess (fun _ => 0)).round + 1 :=
  claim_C10.1 (fun _ => 1) (initSess (fun _ => 0)) (by decide)

end MemoryGame
